import Mathlib

/-!
Verification development for the cleaning-and-aggregation engine of
`extract_data.py` (high-frequency trade data extraction script).

The engine has three parts, embedded below from the source:

* `clean_time_trades` — the rule-based trade-condition filter;
* `clean_heuristic_trades` — the grid-search outlier detector built from
  trimmed rolling statistics;
* `output_aggregate` — the same-timestamp aggregation step.

Numeric model: prices, thresholds and statistics are carried in `ℚ`
(exact arithmetic idealizing the IEEE doubles of numpy/pandas; in
particular the grid slacks `0.02, 0.04, 0.06` are the exact rationals
`1/50, 1/25, 3/50`).  A missing value (numpy NaN) is `none : Option ℚ`,
and every comparison against a missing value is `false`, as in pandas.
The sample standard deviation takes a square root through `ratSqrt`,
which is exact on perfect squares; every concrete evaluation below only
takes the square root of `0`.  A pandas `IndexError` (out-of-bounds
positional indexing) is `Except.error "IndexError"`.
-/

namespace ExtractData

/-! ## ConditionFilter: `clean_time_trades` -/

/-- Blank removal applied to the condition string before classification:
`element = output_.iloc[row, 5].replace(" ", "")`. -/
def stripBlanks (s : String) : List Char :=
  s.data.filter (fun c => c != ' ')

/-- The allowed condition characters (`char_allowed`). -/
def char_allowed : List Char :=
  ['@', 'A', 'B', 'C', 'D', 'E', 'F', 'H', 'I', 'K', 'M', 'N', 'O', 'Q',
   'R', 'S', 'V', 'W', 'Y', '1', '4', '5', '6', '7', '8', '9']

/-- The forbidden condition characters (`char_forbidden`). -/
def char_forbidden : List Char := ['G', 'L', 'P', 'T', 'U', 'X', 'Z']

/-- `char_recognized = char_allowed | char_forbidden`. -/
def char_recognized : List Char := char_allowed ++ char_forbidden

/-- Per-row classification of the condition string: the three branches of
the row loop of `clean_time_trades`.  `none` models a row left at the NaN
the series `tr_scond_check` was initialized with (no branch taken); the
totality theorem below shows this never happens. -/
def condClass (s : String) : Option Bool :=
  if (stripBlanks s).any char_forbidden.contains &&
      (stripBlanks s).all char_recognized.contains then
    some false
  else if (stripBlanks s).all char_allowed.contains then
    some true
  else if (stripBlanks s).any (fun c => !(char_recognized.contains c)) then
    some false
  else
    none

/-- True when the third branch of the row loop fires, i.e. when the row
index is appended to the diagnostic list `char_unseen_row`. -/
def unseenHit (s : String) : Bool :=
  !((stripBlanks s).any char_forbidden.contains &&
      (stripBlanks s).all char_recognized.contains) &&
    !((stripBlanks s).all char_allowed.contains) &&
    (stripBlanks s).any (fun c => !(char_recognized.contains c))

/-- One queried trade tick: the columns of the extracted frame that the
cleaning engine reads. -/
structure TickRec where
  sym_root : String
  date : ℕ
  time_m : ℕ
  price : ℚ
  size : ℕ
  tr_corr : String
  tr_scond : String
  deriving DecidableEq, Repr

/-- `clean_time_trades`: the correction mask `tr_corr_check`, the
condition mask `tr_scond_check`, and the logged list `char_unseen_row` of
row indices holding unseen characters. -/
def clean_time_trades (recs : List TickRec) :
    List Bool × List (Option Bool) × List ℕ :=
  (recs.map (fun r => r.tr_corr == "00"),
   recs.map (fun r => condClass r.tr_scond),
   (recs.enum.filter (fun p => unseenHit p.2.tr_scond)).map (fun p => p.1))

/-! ## OutlierDetector: `clean_heuristic_trades` -/

/-- Square root on `ℚ`, used for the sample standard deviation.  It
idealizes the numpy float square root and is exact whenever the argument
is the square of a rational; every evaluation appearing in the theorems
below is at such an argument (in fact at `0`). -/
def ratSqrt (q : ℚ) : ℚ :=
  if q ≤ 0 then 0 else (Nat.sqrt q.num.toNat : ℚ) / (Nat.sqrt q.den : ℚ)

/-- Ascending sort of the values of a series. -/
def sortQ (l : List ℚ) : List ℚ := l.insertionSort (fun a b => a ≤ b)

/-- The fractional position `p * (n - 1)` a quantile interpolates at. -/
def qPos (l : List ℚ) (p : ℚ) : ℚ := p * ((l.length : ℚ) - 1)

/-- The index below the quantile position. -/
def qLo (l : List ℚ) (p : ℚ) : ℕ := (qPos l p).floor.toNat

/-- The sorted value at the index below the quantile position. -/
def qA (l : List ℚ) (p : ℚ) : ℚ := (sortQ l).getD (qLo l p) 0

/-- The sorted value at the next index (falling back to `qA` at the top). -/
def qB (l : List ℚ) (p : ℚ) : ℚ := (sortQ l).getD (qLo l p + 1) (qA l p)

/-- pandas `Series.quantile` with the default linear interpolation on the
sorted values; `none` (NaN) on an empty series. -/
def quantileQ (l : List ℚ) (p : ℚ) : Option ℚ :=
  if l.isEmpty then none
  else some (qA l p + (qPos l p - ((qLo l p : ℕ) : ℚ)) * (qB l p - qA l p))

/-- Two-sided strict trimming of a rolling window at `delta = 1/10`:
`rolling_window[(rolling_window > q(delta)) & (rolling_window < q(1 - delta))]`. -/
def trimWindow (w : List ℚ) : List ℚ :=
  match quantileQ w (1/10), quantileQ w (9/10) with
  | some lo, some hi => w.filter (fun v => decide (lo < v) && decide (v < hi))
  | _, _ => []

/-- The arithmetic mean of a list of values. -/
def meanVal (l : List ℚ) : ℚ := l.sum / (l.length : ℚ)

/-- pandas `.mean()`: NaN on an empty series. -/
def meanQ (l : List ℚ) : Option ℚ :=
  if l.isEmpty then none else some (meanVal l)

/-- pandas `.std()` with the default `ddof = 1`: NaN when fewer than two
values remain. -/
def stdQ (l : List ℚ) : Option ℚ :=
  if l.length < 2 then none
  else some (ratSqrt
    ((l.map (fun x => (x - meanVal l) * (x - meanVal l))).sum / ((l.length : ℚ) - 1)))

/-- `range_start = int((k - 1) / 2)`, the window half-width. -/
def range_start (k : ℕ) : ℕ := (k - 1) / 2

/-- The rolling window `price_sym_day.iloc[window_start:window_end]` with
`window_start = window_center - range_start` and
`window_end = window_center + range_start + 1`. -/
def windowAt (prices : List ℚ) (rs i : ℕ) : List ℚ :=
  (prices.drop (i - rs)).take (2 * rs + 1)

/-- Centre value written into `price_sym_day_mean` by the rolling loop;
`none` at positions the loop never writes (the NaN the series was
initialized with). -/
def baseMean (prices : List ℚ) (rs i : ℕ) : Option ℚ :=
  if rs ≤ i ∧ i < prices.length - rs then
    meanQ (trimWindow (windowAt prices rs i))
  else none

/-- Centre value written into `price_sym_day_std` by the rolling loop. -/
def baseStd (prices : List ℚ) (rs i : ℕ) : Option ℚ :=
  if rs ≤ i ∧ i < prices.length - rs then
    stdQ (trimWindow (windowAt prices rs i))
  else none

/-- Boundary fill of a statistics series:
`iloc[:range_start] = iloc[range_start]` followed by
`iloc[range_end:] = iloc[range_end - 1]`. -/
def fillLeft (g : ℕ → Option ℚ) (rs : ℕ) : ℕ → Option ℚ :=
  fun i => if i < rs then g rs else g i

def fillBounds (g : ℕ → Option ℚ) (rs re n : ℕ) : List (Option ℚ) :=
  (List.range n).map
    (fun i => if re ≤ i then fillLeft g rs (re - 1) else fillLeft g rs i)

/-- The per-day mean series `price_sym_day_mean` after boundary filling. -/
def dayMeans (k : ℕ) (prices : List ℚ) : List (Option ℚ) :=
  fillBounds (baseMean prices (range_start k)) (range_start k)
    (prices.length - range_start k) prices.length

/-- The per-day standard-deviation series `price_sym_day_std` after
boundary filling. -/
def dayStds (k : ℕ) (prices : List ℚ) : List (Option ℚ) :=
  fillBounds (baseStd prices (range_start k)) (range_start k)
    (prices.length - range_start k) prices.length

/-- `left_con > right_con` at one tick (`outlier_con_sym_day`); a
comparison against NaN is false. -/
def outlierFlag (k : ℕ) (y : ℚ) (prices : List ℚ) (i : ℕ) : Bool :=
  match (dayMeans k prices).getD i none, (dayStds k prices).getD i none with
  | some m, some s => decide (3 * s + y < |prices.getD i 0 - m|)
  | _, _ => false

/-- `left_con < right_con` at one tick (`not_outlier_con_sym_day`, the
keep mask); a comparison against NaN is false. -/
def keepFlag (k : ℕ) (y : ℚ) (prices : List ℚ) (i : ℕ) : Bool :=
  match (dayMeans k prices).getD i none, (dayStds k prices).getD i none with
  | some m, some s => decide (|prices.getD i 0 - m| < 3 * s + y)
  | _, _ => false

/-- One day of `clean_heuristic_trades` for a fixed candidate `(k, y)`:
the outlier count `outlier_con_sym_day.sum()` and the keep mask, or the
`IndexError` pandas raises at `iloc[range_start]` when
`range_start ≥ N`. -/
def dayMasks (k : ℕ) (y : ℚ) (prices : List ℚ) : Except String (ℕ × List Bool) :=
  if prices.length ≤ range_start k then Except.error "IndexError"
  else
    Except.ok ((List.range prices.length).countP (outlierFlag k y prices),
      (List.range prices.length).map (keepFlag k y prices))

/-- The day loop for one `(k, y)` candidate: cumulative outlier count
`outlier_num_sym` and the concatenated keep mask `not_outlier_sym`. -/
def runCandidate (k : ℕ) (y : ℚ) (days : List (List ℚ)) :
    Except String (ℕ × List Bool) :=
  days.foldlM (fun acc d => do
    let r ← dayMasks k y d
    pure (acc.1 + r.1, acc.2 ++ r.2)) (0, [])

/-- `k_list = np.arange(41, 121, 20)`. -/
def k_list : List ℕ := [41, 61, 81, 101]

/-- `y_list = np.arange(0.02, 0.08, 0.02)` (exact rationals). -/
def y_list : List ℚ := [1/50, 1/25, 3/50]

/-- `ky_array`: the raveled meshgrid; `k` varies fastest, `y` slowest. -/
def ky_array : List (ℕ × ℚ) := y_list.flatMap (fun y => k_list.map (fun k => (k, y)))

/-- Update of the running best of the grid search (`out_num`, `k`, `y`
and `not_outlier_sym_f`): a strictly larger outlier count overwrites, an
equal one does not. -/
def stepBest (b : ℕ × ℚ × ℕ × List Bool) (c : ℕ × ℚ) (r : ℕ × List Bool) :
    ℕ × ℚ × ℕ × List Bool :=
  if b.2.2.1 < r.1 then (c.1, c.2, r.1, r.2) else b

/-- The candidate loop of `clean_heuristic_trades` for one symbol:
`count == 1` initializes the best (state `none`), each later candidate
overwrites it only on a strictly larger `outlier_num_sym`. -/
def gridFold (days : List (List ℚ)) :
    List (ℕ × ℚ) → Option (ℕ × ℚ × ℕ × List Bool) →
      Except String (Option (ℕ × ℚ × ℕ × List Bool))
  | [], st => Except.ok st
  | c :: cs, st => do
    let r ← runCandidate c.1 c.2 days
    match st with
    | none => gridFold days cs (some (c.1, c.2, r.1, r.2))
    | some b => gridFold days cs (some (stepBest b c r))

/-- The whole grid search for one symbol: chosen `k`, `y`, its cumulative
outlier count, and its keep mask. -/
def symbolRun (days : List (List ℚ)) : Except String (ℕ × ℚ × ℕ × List Bool) := do
  match ← gridFold days ky_array none with
  | some b => pure b
  | none => Except.error "empty grid"

/-- `output_.loc[(sym_root == symbol) & (date == date), 'price']`. -/
def pricesOf (recs : List TickRec) (s : String) (d : ℕ) : List ℚ :=
  (recs.filter (fun r => r.sym_root == s && r.date == d)).map (fun r => r.price)

/-- `clean_heuristic_trades`: for each symbol run the grid search over its
days and append the winning keep mask to `not_outlier_series`. -/
def clean_heuristic_trades (recs : List TickRec) (symbol_list : List String)
    (date_list : List ℕ) : Except String (List Bool) :=
  symbol_list.foldlM (fun acc s => do
    let b ← symbolRun (date_list.map (fun d => pricesOf recs s d))
    pure (acc ++ b.2.2.2)) []

/-! ## Pipeline: `output_filtered` -/

/-- `filter_tr_corr & filter_tr_scond & filter_outlier`, pointwise (the
collection is laid out symbol-major, date-minor, so the concatenated
outlier mask is aligned with it; the condition mask is total by the
totality theorem below, a NaN entry would read as `false`). -/
def mergedMask (m1 m2 m3 : List Bool) : List Bool :=
  List.zipWith (fun a b => a && b) (List.zipWith (fun a b => a && b) m1 m2) m3

/-- Boolean-mask row selection `output[mask]`. -/
def applyMask (recs : List TickRec) (m : List Bool) : List TickRec :=
  (recs.zip m).filterMap (fun p => if p.2 then some p.1 else none)

/-- `output_filtered = output[filter_tr_corr & filter_tr_scond & filter_outlier]`. -/
def output_filtered (recs : List TickRec) (symbol_list : List String)
    (date_list : List ℕ) : Except String (List TickRec) := do
  let t := clean_time_trades recs
  let h ← clean_heuristic_trades recs symbol_list date_list
  pure (applyMask recs (mergedMask t.1 (t.2.1.map (fun o => o.getD false)) h))

/-! ## Aggregator: `output_aggregate` -/

/-- One row of the aggregation input and output: `sym_root, date, time_m,
price, size`. -/
structure AggRow where
  sym_root : String
  date : ℕ
  time_m : ℕ
  price : ℚ
  size : ℕ
  deriving DecidableEq, Repr

/-- The groupby key `(sym_root, date, time_m)`. -/
def keyOf (r : AggRow) : String × ℕ × ℕ := (r.sym_root, r.date, r.time_m)

/-- Strict lexicographic order on groupby keys. -/
def keyLt (a b : String × ℕ × ℕ) : Prop :=
  a.1 < b.1 ∨ (a.1 = b.1 ∧ (a.2.1 < b.2.1 ∨ (a.2.1 = b.2.1 ∧ a.2.2 < b.2.2)))

instance : DecidableRel keyLt := fun a b => by
  unfold keyLt; infer_instance

/-- Reflexive lexicographic order on groupby keys (the sort order pandas
uses for group keys). -/
def keyLe (a b : String × ℕ × ℕ) : Prop := keyLt a b ∨ a = b

instance : DecidableRel keyLe := fun a b => by
  unfold keyLe; infer_instance

/-- pandas median: middle of the sorted values, or the mean of the two
middle values on an even count. -/
def medianQ (l : List ℚ) : ℚ :=
  if l.length % 2 = 1 then (sortQ l).getD (l.length / 2) 0
  else ((sortQ l).getD (l.length / 2 - 1) 0 + (sortQ l).getD (l.length / 2) 0) / 2

/-- The distinct group keys of `groupby(['sym_root', 'date', 'time_m'])`,
sorted ascending (pandas sorts group keys). -/
def groupKeys (l : List AggRow) : List (String × ℕ × ℕ) :=
  ((l.map keyOf).dedup).insertionSort keyLe

/-- The rows of one group, in input order. -/
def groupOf (l : List AggRow) (key : String × ℕ × ℕ) : List AggRow :=
  l.filter (fun r => decide (keyOf r = key))

/-- The aggregation step: one row per distinct key, with the median price
and the summed size of its group, rows ordered by key. -/
def output_aggregate (l : List AggRow) : List AggRow :=
  (groupKeys l).map (fun key =>
    ⟨key.1, key.2.1, key.2.2,
      medianQ ((groupOf l key).map (fun r => r.price)),
      ((groupOf l key).map (fun r => r.size)).sum⟩)

/-! ## Concrete inputs used by counterexamples and witnesses -/

/-- The 51-tick day used for the concrete tie scenario: five ticks at 1,
the tie tick at 5.02 (index 5), twenty-six ticks at 5, nine more at 5.02,
and ten at 5.  Under the selected candidate `(k, y) = (41, 0.02)` the
centre window (indices 0..40) trims to twenty-six ticks at 5, so
`center_mean = 5` and `center_std = 0`, and the tick at index 5 ties
exactly: `|5.02 - 5| = 3 * 0 + 0.02`. -/
def tieDay : List ℚ :=
  List.replicate 5 1 ++ [251/50] ++ List.replicate 26 5 ++
    List.replicate 9 (251/50) ++ List.replicate 10 5

/-- The keep mask the detector returns on `tieDay`. -/
def tieMask : List Bool :=
  List.replicate 6 false ++ List.replicate 15 true ++ List.replicate 30 false

/-- `tieDay` wrapped as clean records of one symbol and one date. -/
def tieRecs : List TickRec :=
  (List.range 51).map (fun i => ⟨"A", 0, i, tieDay.getD i 0, 1, "00", ""⟩)

/-- The records that survive the full filter on `tieRecs`. -/
def tieKept : List TickRec :=
  (List.range 15).map (fun j => ⟨"A", 0, j + 6, 5, 1, "00", ""⟩)

instance exceptDecEq {ε α : Type} [DecidableEq ε] [DecidableEq α] :
    DecidableEq (Except ε α) := fun x y =>
  match x, y with
  | .error a, .error b =>
    if h : a = b then isTrue (by rw [h])
    else isFalse (by intro hc; cases hc; exact h rfl)
  | .error _, .ok _ => isFalse (by intro hc; cases hc)
  | .ok _, .error _ => isFalse (by intro hc; cases hc)
  | .ok a, .ok b =>
    if h : a = b then isTrue (by rw [h])
    else isFalse (by intro hc; cases hc; exact h rfl)

/-! ## Helper lemmas: character classes -/

lemma mem_of_containsChar {c : Char} {l : List Char} (h : l.contains c = true) :
    c ∈ l := by
  simpa [List.contains] using h

lemma containsChar_of_mem {c : Char} {l : List Char} (h : c ∈ l) :
    l.contains c = true := by
  simpa [List.contains] using h

lemma allowed_forbidden_disjoint {c : Char}
    (h1 : char_allowed.contains c = true)
    (h2 : char_forbidden.contains c = true) : False := by
  have h2m : c ∈ char_forbidden := mem_of_containsChar h2
  have h1m : c ∈ char_allowed := mem_of_containsChar h1
  fin_cases h2m <;> exact absurd h1m (by decide)

lemma recognized_of_allowed {c : Char}
    (h : char_allowed.contains c = true) : char_recognized.contains c = true := by
  exact containsChar_of_mem (by
    have := mem_of_containsChar h
    simp [char_recognized]
    exact Or.inl this)

lemma forbidden_of_recognized_not_allowed {c : Char}
    (hr : char_recognized.contains c = true)
    (ha : char_allowed.contains c = false) : char_forbidden.contains c = true := by
  have := mem_of_containsChar hr
  rw [char_recognized, List.mem_append] at this
  rcases this with h | h
  · rw [containsChar_of_mem h] at ha
    exact absurd ha (by simp)
  · exact containsChar_of_mem h

/-! ## C7: totality of the condition filter -/

/-- C7: the condition filter is total and never raises: every condition
string is classified as exactly one of admissible (`some true`) and
inadmissible (`some false`), never left at the NaN initialization
(`none`); a string that is empty after stripping blanks is admissible,
and a string made only of allowed-class characters is admissible. -/
theorem condition_filter_total (s : String) :
    (condClass s).isSome = true ∧
    (stripBlanks s = [] → condClass s = some true) ∧
    ((stripBlanks s).all char_allowed.contains = true → condClass s = some true) := by
  refine ⟨?_, ?_, ?_⟩
  · unfold condClass
    cases h1 : ((stripBlanks s).any char_forbidden.contains &&
        (stripBlanks s).all char_recognized.contains)
    · cases h2 : (stripBlanks s).all char_allowed.contains
      · cases h3 : (stripBlanks s).any (fun c => !(char_recognized.contains c))
        · exfalso
          obtain ⟨c, hc, hca⟩ := List.all_eq_false.mp h2
          have hrec : char_recognized.contains c = true := by
            have := List.any_eq_false.mp h3 c hc
            simpa using this
          have hca' : char_allowed.contains c = false := by
            cases hval : char_allowed.contains c
            · rfl
            · exact absurd hval hca
          have hfa : char_forbidden.contains c = true :=
            forbidden_of_recognized_not_allowed hrec hca'
          have hany : (stripBlanks s).any char_forbidden.contains = true :=
            List.any_eq_true.mpr ⟨c, hc, hfa⟩
          have hall : (stripBlanks s).all char_recognized.contains = true := by
            refine List.all_eq_true.mpr (fun d hd => ?_)
            have := List.any_eq_false.mp h3 d hd
            simpa using this
          rw [hany, hall] at h1
          simp at h1
        · simp only [h1, h2, h3]
          simp
      · simp only [h1, h2]
        simp
    · simp only [h1]
      simp
  · intro h
    unfold condClass
    rw [h]
    simp
  · intro h
    unfold condClass
    have hany : (stripBlanks s).any char_forbidden.contains = false := by
      refine List.any_eq_false.mpr (fun c hc hfc => ?_)
      have hac : char_allowed.contains c = true := (List.all_eq_true.mp h) c hc
      exact allowed_forbidden_disjoint hac hfc
    rw [hany, h]
    simp

/-- Closed witness for `condition_filter_total`. -/
theorem condition_filter_total_witness :
    (condClass "POX").isSome = true ∧ condClass "  " = some true ∧
      condClass "@F" = some true :=
  ⟨(condition_filter_total "POX").1,
   (condition_filter_total "  ").2.1 (by decide),
   (condition_filter_total "@F").2.2 (by decide)⟩

/-! ## C6: unseen characters dominate -/

/-- C6: a tick whose stripped condition string holds any character outside
the recognized set is classified inadmissible (`condition_ok = false`)
whatever else it holds, its row index is recorded in the unseen-character
diagnostic list, and the masks themselves are per-row pure functions of
the record (the diagnostic has no effect on any mask value). -/
theorem unseen_dominant (recs : List TickRec) (i : ℕ) (h : i < recs.length)
    (hu : (stripBlanks (recs.get ⟨i, h⟩).tr_scond).any
      (fun c => !(char_recognized.contains c)) = true) :
    (clean_time_trades recs).2.1.getD i none = some false ∧
    i ∈ (clean_time_trades recs).2.2 ∧
    (clean_time_trades recs).1 = recs.map (fun r => r.tr_corr == "00") ∧
    (clean_time_trades recs).2.1 = recs.map (fun r => condClass r.tr_scond) := by
  obtain ⟨c, hc, hcr⟩ := List.any_eq_true.mp hu
  have hcr' : char_recognized.contains c = false := by
    cases hval : char_recognized.contains c
    · rfl
    · rw [hval] at hcr
      simp at hcr
  have hall : (stripBlanks (recs.get ⟨i, h⟩).tr_scond).all
      char_recognized.contains = false := by
    refine List.all_eq_false.mpr ⟨c, hc, ?_⟩
    simp only [hcr']
    simp
  have hallow : (stripBlanks (recs.get ⟨i, h⟩).tr_scond).all
      char_allowed.contains = false := by
    refine List.all_eq_false.mpr ⟨c, hc, ?_⟩
    intro hac
    rw [recognized_of_allowed hac] at hcr'
    simp at hcr'
  have hband : ((stripBlanks (recs.get ⟨i, h⟩).tr_scond).any
      char_forbidden.contains &&
      (stripBlanks (recs.get ⟨i, h⟩).tr_scond).all
        char_recognized.contains) = false := by
    rw [hall]
    simp
  have hclass : condClass (recs.get ⟨i, h⟩).tr_scond = some false := by
    unfold condClass
    rw [hband, hallow, hu]
    simp
  have hhit : unseenHit (recs.get ⟨i, h⟩).tr_scond = true := by
    unfold unseenHit
    rw [hband, hallow, hu]
    simp
  refine ⟨?_, ?_, rfl, rfl⟩
  · have : (recs.map (fun r => condClass r.tr_scond))[i]? =
        some (condClass (recs.get ⟨i, h⟩).tr_scond) := by
      rw [List.getElem?_map, List.getElem?_eq_getElem h]
      rfl
    unfold clean_time_trades
    simp only [List.getD_eq_getElem?_getD, this, hclass, Option.getD_some]
  · unfold clean_time_trades
    simp only [List.mem_map, List.mem_filter]
    refine ⟨(i, recs.get ⟨i, h⟩), ⟨?_, hhit⟩, rfl⟩
    rw [List.mk_mem_enum_iff_getElem?]
    exact List.getElem?_eq_getElem h

/-- Closed witness for `unseen_dominant`: a record whose condition string
holds the unseen character `j` next to an allowed and a forbidden one. -/
theorem unseen_dominant_witness :
    (clean_time_trades [⟨"A", 0, 0, 5, 1, "00", "@Tj"⟩]).2.1.getD 0 none = some false ∧
    0 ∈ (clean_time_trades [⟨"A", 0, 0, 5, 1, "00", "@Tj"⟩]).2.2 := by
  have h := unseen_dominant [⟨"A", 0, 0, 5, 1, "00", "@Tj"⟩] 0 (by decide) (by decide)
  exact ⟨h.1, h.2.1⟩

/-! ## Helper lemmas: rolling statistics -/

lemma getD_range_map {α : Type} (f : ℕ → α) (n i : ℕ) (h : i < n) (d : α) :
    ((List.range n).map f).getD i d = f i := by
  rw [List.getD_eq_getElem?_getD, List.getElem?_map, List.getElem?_range h]
  rfl

lemma fillBounds_getD_valid (g : ℕ → Option ℚ) (rs re n i : ℕ)
    (h1 : rs ≤ i) (h2 : i < re) (h3 : i < n) :
    (fillBounds g rs re n).getD i none = g i := by
  unfold fillBounds
  rw [getD_range_map _ _ _ h3]
  rw [if_neg (by omega)]
  unfold fillLeft
  rw [if_neg (by omega)]

lemma fillBounds_getD_left (g : ℕ → Option ℚ) (rs re n i : ℕ)
    (h1 : i < rs) (h2 : i < re) (h3 : i < n) :
    (fillBounds g rs re n).getD i none = g rs := by
  unfold fillBounds
  rw [getD_range_map _ _ _ h3]
  rw [if_neg (by omega)]
  unfold fillLeft
  rw [if_pos h1]

lemma fillBounds_getD_right (g : ℕ → Option ℚ) (rs re n i : ℕ)
    (h1 : re ≤ i) (h2 : i < n) (h3 : rs ≤ re - 1) :
    (fillBounds g rs re n).getD i none = g (re - 1) := by
  unfold fillBounds
  rw [getD_range_map _ _ _ h2]
  rw [if_pos h1]
  unfold fillLeft
  rw [if_neg (by omega)]

lemma dayMeans_getD_valid (k : ℕ) (prices : List ℚ) (i : ℕ)
    (h1 : range_start k ≤ i) (h2 : i < prices.length - range_start k) :
    (dayMeans k prices).getD i none =
      meanQ (trimWindow (windowAt prices (range_start k) i)) := by
  unfold dayMeans
  rw [fillBounds_getD_valid _ _ _ _ _ h1 h2 (by omega)]
  unfold baseMean
  rw [if_pos ⟨h1, h2⟩]

lemma dayStds_getD_valid (k : ℕ) (prices : List ℚ) (i : ℕ)
    (h1 : range_start k ≤ i) (h2 : i < prices.length - range_start k) :
    (dayStds k prices).getD i none =
      stdQ (trimWindow (windowAt prices (range_start k) i)) := by
  unfold dayStds
  rw [fillBounds_getD_valid _ _ _ _ _ h1 h2 (by omega)]
  unfold baseStd
  rw [if_pos ⟨h1, h2⟩]

lemma keepFlag_of_mean_none (k : ℕ) (y : ℚ) (prices : List ℚ) (i : ℕ)
    (hm : (dayMeans k prices).getD i none = none) :
    keepFlag k y prices i = false := by
  unfold keepFlag
  rw [hm]

lemma outlierFlag_of_mean_none (k : ℕ) (y : ℚ) (prices : List ℚ) (i : ℕ)
    (hm : (dayMeans k prices).getD i none = none) :
    outlierFlag k y prices i = false := by
  unfold outlierFlag
  rw [hm]

lemma mergedMask_getD_false (m1 m2 m3 : List Bool) (i : ℕ)
    (h3 : m3.getD i false = false) :
    (mergedMask m1 m2 m3).getD i false = false := by
  unfold mergedMask
  rw [List.getD_eq_getElem?_getD, List.getElem?_zipWith]
  rw [List.getD_eq_getElem?_getD] at h3
  cases e3 : m3[i]?
  · cases e12 : (List.zipWith (fun a b => a && b) m1 m2)[i]? <;> simp
  · rw [e3] at h3
    have hb : ∀ b, Option.getD (some b) false = b := fun b => rfl
    rw [hb] at h3
    subst h3
    cases e12 : (List.zipWith (fun a b => a && b) m1 m2)[i]? <;> simp

/-- The sorted list of an all-equal list is all-equal, and `getD` inside
the length returns that value. -/
lemma sorted_all_eq_getD {w : List ℚ} {c : ℚ} (hall : ∀ v ∈ w, v = c)
    (lo : ℕ) (hlo : lo < w.length) (d : ℚ) :
    (w.insertionSort (fun a b => a ≤ b)).getD lo d = c := by
  have hperm := List.perm_insertionSort (fun a b => a ≤ b) w
  have hlen : (w.insertionSort (fun a b => a ≤ b)).length = w.length :=
    hperm.length_eq
  rw [List.getD_eq_getElem?_getD, List.getElem?_eq_getElem (by omega)]
  have : (w.insertionSort (fun a b => a ≤ b))[lo] ∈
      w.insertionSort (fun a b => a ≤ b) := List.getElem_mem _
  exact hall _ (hperm.mem_iff.mp this)

lemma getD_of_length_le {α : Type} (l : List α) (n : ℕ) (d : α)
    (h : l.length ≤ n) : l.getD n d = d := by
  rw [List.getD_eq_getElem?_getD, List.getElem?_eq_none h]
  rfl

lemma qLo_lt_length {w : List ℚ} (hw : w ≠ []) {p : ℚ} (_hp0 : 0 ≤ p)
    (hp1 : p ≤ 1) : qLo w p < w.length := by
  have hn : 1 ≤ w.length := List.length_pos.mpr hw
  have h1 : (1 : ℚ) ≤ (w.length : ℚ) := by exact_mod_cast hn
  have hfle : (qPos w p).floor ≤ (w.length : ℤ) - 1 := by
    by_contra hcon
    push_neg at hcon
    have hle : ((w.length : ℤ) : ℚ) ≤ qPos w p := by
      rw [← Rat.le_floor]
      omega
    unfold qPos at hle
    push_cast at hle
    nlinarith
  unfold qLo
  omega

lemma quantileQ_all_eq {w : List ℚ} {c : ℚ} (hw : w ≠ [])
    (hall : ∀ v ∈ w, v = c) {p : ℚ} (hp0 : 0 ≤ p) (hp1 : p ≤ 1) :
    quantileQ w p = some c := by
  have hA : qA w p = c := by
    unfold qA sortQ
    exact sorted_all_eq_getD hall _ (qLo_lt_length hw hp0 hp1) 0
  have hB : qB w p = c := by
    unfold qB
    by_cases hlt : qLo w p + 1 < w.length
    · unfold sortQ
      exact sorted_all_eq_getD hall _ hlt _
    · rw [getD_of_length_le]
      · exact hA
      · unfold sortQ
        rw [(List.perm_insertionSort _ w).length_eq]
        omega
  unfold quantileQ
  rw [if_neg (by simpa [List.isEmpty_iff] using hw)]
  rw [hA, hB]
  ring_nf

lemma trimWindow_all_eq {w : List ℚ} {c : ℚ} (hw : w ≠ [])
    (hall : ∀ v ∈ w, v = c) : trimWindow w = [] := by
  unfold trimWindow
  rw [quantileQ_all_eq hw hall (by norm_num) (by norm_num),
    quantileQ_all_eq hw hall (by norm_num) (by norm_num)]
  refine List.filter_eq_nil_iff.mpr (fun v hv => ?_)
  rw [hall v hv]
  simp

lemma windowAt_ne_nil {prices : List ℚ} {rs i : ℕ}
    (h2 : i < prices.length - rs) : windowAt prices rs i ≠ [] := by
  unfold windowAt
  intro hcon
  have hlen := congrArg List.length hcon
  rw [List.length_take, List.length_drop] at hlen
  simp only [List.length_nil] at hlen
  omega

/-! ## C10: an empty trimmed window silently drops its ticks -/

/-- C10: at a valid window centre whose trimmed window is empty — in
particular whenever all `k` window prices are equal, since the strict
two-sided trim then removes everything — the trimmed mean and standard
deviation are NaN, so the tick at that centre is neither counted as an
outlier nor marked kept, and the merged keep-mask (an AND with the keep
mask) silently drops it whatever the other two masks say. -/
theorem empty_trim_silently_drops (k : ℕ) (y : ℚ) (prices : List ℚ) (i : ℕ)
    (h1 : range_start k ≤ i) (h2 : i < prices.length - range_start k)
    (ht : trimWindow (windowAt prices (range_start k) i) = [] ∨
      ∃ c, ∀ v ∈ windowAt prices (range_start k) i, v = c) :
    (dayMeans k prices).getD i none = none ∧
    (dayStds k prices).getD i none = none ∧
    outlierFlag k y prices i = false ∧
    keepFlag k y prices i = false ∧
    ∀ m1 m2 : List Bool,
      (mergedMask m1 m2
        ((List.range prices.length).map (keepFlag k y prices))).getD i false =
        false := by
  have ht' : trimWindow (windowAt prices (range_start k) i) = [] := by
    rcases ht with h | ⟨c, hc⟩
    · exact h
    · exact trimWindow_all_eq (windowAt_ne_nil h2) hc
  have hm : (dayMeans k prices).getD i none = none := by
    rw [dayMeans_getD_valid _ _ _ h1 h2, ht']
    rfl
  have hsd : (dayStds k prices).getD i none = none := by
    rw [dayStds_getD_valid _ _ _ h1 h2, ht']
    rfl
  have hkeep := keepFlag_of_mean_none k y prices i hm
  refine ⟨hm, hsd, outlierFlag_of_mean_none k y prices i hm, hkeep, ?_⟩
  intro m1 m2
  apply mergedMask_getD_false
  rw [getD_range_map _ _ _ (by omega)]
  exact hkeep

/-- Closed witness for `empty_trim_silently_drops`: a 41-tick day of
constant prices, at its unique valid centre. -/
theorem empty_trim_silently_drops_witness :
    (dayMeans 41 (List.replicate 41 (5:ℚ))).getD 20 none = none ∧
    keepFlag 41 (1/50) (List.replicate 41 (5:ℚ)) 20 = false ∧
    (mergedMask (List.replicate 41 true) (List.replicate 41 true)
      ((List.range 41).map
        (keepFlag 41 (1/50) (List.replicate 41 (5:ℚ))))).getD 20 false =
      false := by
  have h := empty_trim_silently_drops 41 (1/50) (List.replicate 41 5) 20
    (by decide) (by with_unfolding_all decide)
    (Or.inr ⟨5, by with_unfolding_all decide⟩)
  exact ⟨h.1, h.2.2.2.1, h.2.2.2.2 _ _⟩

/-! ## C1: exact ties on the outlier band -/

/-- C1 (amended): a tick whose price sits exactly on the band boundary,
`|price[i] - center_mean[i]| = 3 * center_std[i] + y`, is neither counted
as an outlier nor marked kept by either strict predicate — and since the
merged keep-mask is an AND with the strict keep mask, the tick is treated
as drop and silently removed by filtering (not kept). -/
theorem tie_tick_dropped (k : ℕ) (y m s : ℚ) (prices : List ℚ) (i : ℕ)
    (hm : (dayMeans k prices).getD i none = some m)
    (hs : (dayStds k prices).getD i none = some s)
    (htie : |prices.getD i 0 - m| = 3 * s + y) :
    outlierFlag k y prices i = false ∧
    keepFlag k y prices i = false ∧
    ∀ m1 m2 : List Bool, i < prices.length →
      (mergedMask m1 m2
        ((List.range prices.length).map (keepFlag k y prices))).getD i false =
        false := by
  have hkeep : keepFlag k y prices i = false := by
    unfold keepFlag
    rw [hm, hs]
    show decide (|prices.getD i 0 - m| < 3 * s + y) = false
    rw [htie]
    simp
  have hout : outlierFlag k y prices i = false := by
    unfold outlierFlag
    rw [hm, hs]
    show decide (3 * s + y < |prices.getD i 0 - m|) = false
    rw [htie]
    simp
  refine ⟨hout, hkeep, ?_⟩
  intro m1 m2 hi
  apply mergedMask_getD_false
  rw [getD_range_map _ _ _ hi]
  exact hkeep

set_option maxRecDepth 1000000 in
/-- C1, counterexample to the claim as stated: on `tieDay` the detector
selects `(k, y) = (41, 1/50)`; the tick at index 5 ties exactly
(`|price - mean| = 3 * std + y` with `mean = 5`, `std = 0`), is flagged by
neither strict predicate, yet the merged keep-mask treats it as drop and
the full pipeline removes it from the filtered output — it does not
survive filtering, contradicting the claim that it must be kept. -/
theorem tie_tick_dropped_cex :
    symbolRun [tieDay] = Except.ok (41, 1/50, 5, tieMask) ∧
    (dayMeans 41 tieDay).getD 5 none = some 5 ∧
    (dayStds 41 tieDay).getD 5 none = some 0 ∧
    |tieDay.getD 5 0 - 5| = 3 * 0 + 1/50 ∧
    outlierFlag 41 (1/50) tieDay 5 = false ∧
    keepFlag 41 (1/50) tieDay 5 = false ∧
    tieMask.getD 5 true = false ∧
    output_filtered tieRecs ["A"] [0] = Except.ok tieKept ∧
    (tieKept.map (fun r => r.time_m)).contains 5 = false := by
  with_unfolding_all decide

set_option maxRecDepth 1000000 in
/-- Closed witness for `tie_tick_dropped`, at the concrete tie scenario of
`tieDay`. -/
theorem tie_tick_dropped_witness :
    outlierFlag 41 (1/50) tieDay 5 = false ∧
    keepFlag 41 (1/50) tieDay 5 = false ∧
    (mergedMask (List.replicate 51 true) (List.replicate 51 true)
      ((List.range 51).map (keepFlag 41 (1/50) tieDay))).getD 5 false =
      false := by
  have h := tie_tick_dropped 41 (1/50) 5 0 tieDay 5
    (by with_unfolding_all rfl) (by with_unfolding_all rfl)
    (by with_unfolding_all decide)
  exact ⟨h.1, h.2.1, h.2.2 _ _ (by with_unfolding_all decide)⟩

/-! ## Helper lemmas: propagation of the short-day IndexError -/

lemma dayMasks_error_of {k : ℕ} (y : ℚ) {prices : List ℚ}
    (h : prices.length ≤ range_start k) :
    dayMasks k y prices = Except.error "IndexError" := by
  unfold dayMasks
  rw [if_pos h]

lemma dayMasks_shape (k : ℕ) (y : ℚ) (prices : List ℚ) :
    (∃ r, dayMasks k y prices = Except.ok r) ∨
      dayMasks k y prices = Except.error "IndexError" := by
  unfold dayMasks
  split
  · exact Or.inr rfl
  · exact Or.inl ⟨_, rfl⟩

lemma foldlM_days_error (k : ℕ) (y : ℚ) :
    ∀ (days : List (List ℚ)) (acc : ℕ × List Bool),
      (∃ d ∈ days, d.length ≤ range_start k) →
      days.foldlM (fun acc d => do
        let r ← dayMasks k y d
        pure (acc.1 + r.1, acc.2 ++ r.2)) acc = Except.error "IndexError" := by
  intro days
  induction days with
  | nil =>
    intro acc h
    simp at h
  | cons d ds ih =>
    intro acc h
    rw [List.foldlM_cons]
    rcases dayMasks_shape k y d with ⟨r, hr⟩ | hr
    · rw [hr]
      show ds.foldlM _ (acc.1 + r.1, acc.2 ++ r.2) = _
      apply ih
      obtain ⟨d0, hmem, hlen⟩ := h
      rcases List.mem_cons.mp hmem with heq | hmem'
      · exfalso
        subst heq
        rw [dayMasks_error_of y hlen] at hr
        cases hr
      · exact ⟨d0, hmem', hlen⟩
    · rw [hr]
      rfl

lemma runCandidate_error_of_short {k : ℕ} (y : ℚ) {days : List (List ℚ)}
    (h : ∃ d ∈ days, d.length ≤ range_start k) :
    runCandidate k y days = Except.error "IndexError" :=
  foldlM_days_error k y days (0, []) h

lemma runCandidate_shape (k : ℕ) (y : ℚ) (days : List (List ℚ)) :
    (∃ r, runCandidate k y days = Except.ok r) ∨
      runCandidate k y days = Except.error "IndexError" := by
  unfold runCandidate
  generalize (0, ([] : List Bool)) = acc
  induction days generalizing acc with
  | nil => exact Or.inl ⟨acc, rfl⟩
  | cons d ds ih =>
    rw [List.foldlM_cons]
    rcases dayMasks_shape k y d with ⟨r, hr⟩ | hr
    · rw [hr]
      exact ih _
    · rw [hr]
      exact Or.inr rfl

lemma gridFold_error_of_short {days : List (List ℚ)} :
    ∀ (cs : List (ℕ × ℚ)) (st : Option (ℕ × ℚ × ℕ × List Bool)),
      (∃ c ∈ cs, ∃ d ∈ days, d.length ≤ range_start c.1) →
      gridFold days cs st = Except.error "IndexError" := by
  intro cs
  induction cs with
  | nil =>
    intro st h
    simp at h
  | cons c cs' ih =>
    intro st h
    unfold gridFold
    rcases runCandidate_shape c.1 c.2 days with ⟨r, hr⟩ | hr
    · rw [hr]
      show (match st with
        | none => gridFold days cs' (some (c.1, c.2, r.1, r.2))
        | some b => gridFold days cs' (some (stepBest b c r))) = _
      have hnext : ∃ c0 ∈ cs', ∃ d ∈ days, d.length ≤ range_start c0.1 := by
        obtain ⟨c0, hcmem, hd⟩ := h
        rcases List.mem_cons.mp hcmem with heq | hmem'
        · exfalso
          subst heq
          rw [runCandidate_error_of_short c0.2 hd] at hr
          cases hr
        · exact ⟨c0, hmem', hd⟩
      cases st with
      | none => exact ih _ hnext
      | some b => exact ih _ hnext
    · rw [hr]
      rfl

lemma symbolRun_error_of_short {days : List (List ℚ)}
    (h : ∃ d ∈ days, d.length < 41) :
    symbolRun days = Except.error "IndexError" := by
  have hc : ∃ c ∈ ky_array, ∃ d ∈ days, d.length ≤ range_start c.1 := by
    obtain ⟨d, hmem, hlen⟩ := h
    refine ⟨(81, 1/50), ?_, d, hmem, ?_⟩
    · unfold ky_array y_list k_list
      simp
    · unfold range_start
      omega
  unfold symbolRun
  rw [gridFold_error_of_short ky_array none hc]
  rfl

/-! ## C2: days shorter than the smallest window -/

/-- C2 (amended): a symbol with any day of fewer than 41 ticks makes the
grid search raise: the boundary-fill step `iloc[range_start]` indexes out
of bounds at the first candidate whose half-width reaches the day length
(`k = 81`, half-width 40, at the latest), so the per-symbol run returns
the IndexError instead of contributing zero outliers and keeping the
day's ticks. -/
theorem short_day_raises (days : List (List ℚ))
    (h : ∃ d ∈ days, d.length < 41) :
    symbolRun days = Except.error "IndexError" :=
  symbolRun_error_of_short h

/-- C2, counterexample to the claim as stated: a one-tick day does not
yield a zero-count all-kept mask — the detector raises. -/
theorem short_day_raises_cex :
    symbolRun [[(5 : ℚ)]] = Except.error "IndexError" := by
  with_unfolding_all decide

/-- Closed witness for `short_day_raises`: a 40-tick day. -/
theorem short_day_raises_witness :
    symbolRun [List.replicate 40 (5 : ℚ)] = Except.error "IndexError" :=
  short_day_raises _ ⟨List.replicate 40 5, List.mem_singleton_self _, by simp⟩

/-! ## C3: empty input collection -/

lemma gridFold_some_shape {days : List (List ℚ)} :
    ∀ (cs : List (ℕ × ℚ)) (b0 : ℕ × ℚ × ℕ × List Bool),
      (∃ b, gridFold days cs (some b0) = Except.ok (some b)) ∨
        gridFold days cs (some b0) = Except.error "IndexError" := by
  intro cs
  induction cs with
  | nil => exact fun b0 => Or.inl ⟨b0, rfl⟩
  | cons c cs' ih =>
    intro b0
    unfold gridFold
    rcases runCandidate_shape c.1 c.2 days with ⟨r, hr⟩ | hr
    · rw [hr]
      exact ih (stepBest b0 c r)
    · rw [hr]
      exact Or.inr rfl

lemma gridFold_none_shape (days : List (List ℚ)) (cs : List (ℕ × ℚ))
    (hne : cs ≠ []) :
    (∃ b, gridFold days cs none = Except.ok (some b)) ∨
      gridFold days cs none = Except.error "IndexError" := by
  cases cs with
  | nil => exact absurd rfl hne
  | cons c cs' =>
    unfold gridFold
    rcases runCandidate_shape c.1 c.2 days with ⟨r, hr⟩ | hr
    · rw [hr]
      exact gridFold_some_shape cs' (c.1, c.2, r.1, r.2)
    · rw [hr]
      exact Or.inr rfl

lemma symbolRun_shape (days : List (List ℚ)) :
    (∃ b, symbolRun days = Except.ok b) ∨
      symbolRun days = Except.error "IndexError" := by
  unfold symbolRun
  rcases gridFold_none_shape days ky_array
      (by unfold ky_array y_list k_list; simp) with ⟨b, hb⟩ | hb
  · rw [hb]
    exact Or.inl ⟨b, rfl⟩
  · rw [hb]
    exact Or.inr rfl

lemma symbolRun_no_days : symbolRun ([] : List (List ℚ)) =
    Except.ok (41, 1/50, 0, []) := by
  with_unfolding_all decide

/-- C3 (amended): on an empty record collection the condition filter and
the aggregator return empty outputs, but the outlier detector raises the
short-day IndexError as soon as it is given at least one symbol and at
least one date; it returns an empty mask only when the symbol list or the
date list is empty. -/
theorem empty_input_behavior :
    clean_time_trades [] = ([], [], []) ∧
    output_aggregate [] = [] ∧
    ∀ (symbol_list : List String) (date_list : List ℕ),
      clean_heuristic_trades [] symbol_list date_list =
        if symbol_list = [] ∨ date_list = [] then Except.ok []
        else Except.error "IndexError" := by
  refine ⟨rfl, rfl, ?_⟩
  intro syms dates
  by_cases hdate : dates = []
  · subst hdate
    rw [if_pos (Or.inr rfl)]
    unfold clean_heuristic_trades
    have haux : ∀ (ss : List String) (acc : List Bool),
        ss.foldlM (fun acc s => do
          let b ← symbolRun (([] : List ℕ).map (fun d => pricesOf [] s d))
          pure (acc ++ b.2.2.2)) acc = Except.ok acc := by
      intro ss
      induction ss with
      | nil => intro acc; rfl
      | cons s ss' ih =>
        intro acc
        rw [List.foldlM_cons]
        show (do
          let b ← symbolRun ([] : List (List ℚ))
          pure (acc ++ b.2.2.2) : Except String (List Bool)) >>= _ = _
        rw [symbolRun_no_days]
        show ss'.foldlM _ (acc ++ []) = _
        rw [List.append_nil]
        exact ih acc
    exact haux syms []
  · cases syms with
    | nil =>
      rw [if_pos (Or.inl rfl)]
      rfl
    | cons s ss =>
      rw [if_neg (by simp [hdate])]
      unfold clean_heuristic_trades
      rw [List.foldlM_cons]
      have herr : symbolRun (dates.map (fun d => pricesOf [] s d)) =
          Except.error "IndexError" := by
        apply symbolRun_error_of_short
        cases dates with
        | nil => exact absurd rfl hdate
        | cons d ds =>
          refine ⟨pricesOf [] s d, ?_, ?_⟩
          · exact List.mem_map_of_mem _ (List.mem_cons_self _ _)
          · unfold pricesOf
            simp
      rw [herr]
      rfl

/-- C3, counterexample to the claim as stated: on the empty collection the
condition filter and the aggregator do return empty outputs, but the
outlier detector (here for one symbol and one date) raises instead of
returning an empty mask. -/
theorem empty_input_detector_raises_cex :
    clean_time_trades [] = ([], [], []) ∧
    output_aggregate [] = [] ∧
    clean_heuristic_trades [] ["AAPL"] [0] = Except.error "IndexError" := by
  refine ⟨rfl, rfl, ?_⟩
  with_unfolding_all decide

/-! ## Helper lemmas: the grid search as a pure fold -/

lemma gridFold_eq_foldl {days : List (List ℚ)} {f : ℕ × ℚ → ℕ × List Bool} :
    ∀ (cs : List (ℕ × ℚ)),
      (∀ c ∈ cs, runCandidate c.1 c.2 days = Except.ok (f c)) →
      ∀ b0, gridFold days cs (some b0) =
        Except.ok (some (cs.foldl (fun b c => stepBest b c (f c)) b0)) := by
  intro cs
  induction cs with
  | nil => intro _ b0; rfl
  | cons c cs' ih =>
    intro hok b0
    unfold gridFold
    rw [hok c (List.mem_cons_self _ _)]
    show gridFold days cs' (some (stepBest b0 c (f c))) = _
    rw [ih (fun c hc => hok c (List.mem_cons_of_mem _ hc)) (stepBest b0 c (f c))]
    rw [List.foldl_cons]

lemma foldl_stepBest_argmax (f : ℕ × ℚ → ℕ × List Bool) :
    ∀ (cs : List (ℕ × ℚ)) (b0 : ℕ × ℚ × ℕ × List Bool),
      (cs.foldl (fun b c => stepBest b c (f c)) b0 = b0 ∧
        ∀ c ∈ cs, (f c).1 ≤ b0.2.2.1) ∨
      (∃ (i : ℕ) (hi : i < cs.length),
        cs.foldl (fun b c => stepBest b c (f c)) b0 =
          ((cs.get ⟨i, hi⟩).1, (cs.get ⟨i, hi⟩).2, (f (cs.get ⟨i, hi⟩)).1,
            (f (cs.get ⟨i, hi⟩)).2) ∧
        b0.2.2.1 < (f (cs.get ⟨i, hi⟩)).1 ∧
        (∀ c ∈ cs, (f c).1 ≤ (f (cs.get ⟨i, hi⟩)).1) ∧
        (∀ j (hj : j < cs.length), j < i →
          (f (cs.get ⟨j, hj⟩)).1 < (f (cs.get ⟨i, hi⟩)).1)) := by
  intro cs
  induction cs with
  | nil => intro b0; exact Or.inl ⟨rfl, by simp⟩
  | cons c cs' ih =>
    intro b0
    rw [List.foldl_cons]
    by_cases hlt : b0.2.2.1 < (f c).1
    · have hb1 : stepBest b0 c (f c) = (c.1, c.2, (f c).1, (f c).2) := by
        unfold stepBest
        rw [if_pos hlt]
      rw [hb1]
      rcases ih ((c.1, c.2, (f c).1, (f c).2)) with ⟨hres, hle⟩ | h
      · refine Or.inr ⟨0, by simp, ?_, ?_, ?_, ?_⟩
        · exact hres
        · exact hlt
        · intro d hd
          rcases List.mem_cons.mp hd with rfl | hd'
          · exact le_refl _
          · exact hle d hd'
        · intro j hj hj0
          exact absurd hj0 (Nat.not_lt_zero j)
      · obtain ⟨i, hi, hres, hgt, hmax, hearly⟩ := h
        refine Or.inr ⟨i + 1, by simpa using hi, ?_, ?_, ?_, ?_⟩
        · exact hres
        · exact lt_trans hlt hgt
        · intro d hd
          rcases List.mem_cons.mp hd with rfl | hd'
          · exact le_of_lt hgt
          · exact hmax d hd'
        · intro j hj hji
          cases j with
          | zero => exact hgt
          | succ j0 => exact hearly j0 (by simpa using hj) (by omega)
    · have hb1 : stepBest b0 c (f c) = b0 := by
        unfold stepBest
        rw [if_neg hlt]
      rw [hb1]
      rcases ih b0 with ⟨hres, hle⟩ | h
      · refine Or.inl ⟨hres, ?_⟩
        intro d hd
        rcases List.mem_cons.mp hd with rfl | hd'
        · exact Nat.le_of_not_lt hlt
        · exact hle d hd'
      · obtain ⟨i, hi, hres, hgt, hmax, hearly⟩ := h
        refine Or.inr ⟨i + 1, by simpa using hi, ?_, ?_, ?_, ?_⟩
        · exact hres
        · exact hgt
        · intro d hd
          rcases List.mem_cons.mp hd with rfl | hd'
          · exact Nat.le_of_lt (Nat.lt_of_le_of_lt (Nat.le_of_not_lt hlt) hgt)
          · exact hmax d hd'
        · intro j hj hji
          cases j with
          | zero => exact Nat.lt_of_le_of_lt (Nat.le_of_not_lt hlt) hgt
          | succ j0 => exact hearly j0 (by simpa using hj) (by omega)

lemma symbolRun_argmax_general (days : List (List ℚ))
    (f : ℕ × ℚ → ℕ × List Bool) (c0 : ℕ × ℚ) (rest : List (ℕ × ℚ))
    (hky : ky_array = c0 :: rest)
    (hf : ∀ c ∈ ky_array, runCandidate c.1 c.2 days = Except.ok (f c)) :
    ∃ (i : ℕ) (hi : i < ky_array.length),
      symbolRun days = Except.ok
        ((ky_array.get ⟨i, hi⟩).1, (ky_array.get ⟨i, hi⟩).2,
          (f (ky_array.get ⟨i, hi⟩)).1, (f (ky_array.get ⟨i, hi⟩)).2) ∧
      (∀ j (hj : j < ky_array.length),
        (f (ky_array.get ⟨j, hj⟩)).1 ≤ (f (ky_array.get ⟨i, hi⟩)).1) ∧
      (∀ j (hj : j < ky_array.length), j < i →
        (f (ky_array.get ⟨j, hj⟩)).1 < (f (ky_array.get ⟨i, hi⟩)).1) := by
  unfold symbolRun
  rw [hky] at hf ⊢
  have h1 : gridFold days (c0 :: rest) none =
      Except.ok (some (rest.foldl (fun b c => stepBest b c (f c))
        (c0.1, c0.2, (f c0).1, (f c0).2))) := by
    unfold gridFold
    rw [hf c0 (List.mem_cons_self _ _)]
    show gridFold days rest (some (c0.1, c0.2, (f c0).1, (f c0).2)) = _
    exact gridFold_eq_foldl rest
      (fun c hc => hf c (List.mem_cons_of_mem _ hc)) _
  rcases foldl_stepBest_argmax f rest (c0.1, c0.2, (f c0).1, (f c0).2) with
    ⟨hres, hle⟩ | ⟨i, hi, hres, hgt, hmax, hearly⟩
  · refine ⟨0, by simp, ?_, ?_, ?_⟩
    · rw [h1]
      exact congrArg Except.ok hres
    · intro j hj
      cases j with
      | zero => exact le_refl _
      | succ j0 =>
        exact hle _ (List.get_mem rest j0 (by simpa using hj))
    · intro j hj hj0
      exact absurd hj0 (Nat.not_lt_zero j)
  · refine ⟨i + 1, by simpa using hi, ?_, ?_, ?_⟩
    · rw [h1]
      exact congrArg Except.ok hres
    · intro j hj
      cases j with
      | zero => exact le_of_lt hgt
      | succ j0 =>
        exact hmax _ (List.get_mem rest j0 (by simpa using hj))
    · intro j hj hji
      cases j with
      | zero => exact hgt
      | succ j0 => exact hearly j0 (by simpa using hj) (by omega)

/-! ## C4: grid contents, scan order, and first-argmax selection -/

/-- C4: the grid search evaluates every `(k, y)` pair of
`k ∈ {41, 61, 81, 101}`, `y ∈ {0.02, 0.04, 0.06}` in the fixed raveled
meshgrid order (`k` fastest, `y` slowest); provided every candidate
evaluates without raising, the per-symbol run returns the candidate whose
cumulative outlier count is maximal, ties broken by scan order — a later
candidate with an equal count never overwrites the stored best — and the
returned mask is the selected candidate's keep mask. -/
theorem grid_selection_first_argmax (days : List (List ℚ))
    (f : ℕ × ℚ → ℕ × List Bool)
    (hf : ∀ c ∈ ky_array, runCandidate c.1 c.2 days = Except.ok (f c)) :
    ky_array = [(41, 1/50), (61, 1/50), (81, 1/50), (101, 1/50),
      (41, 1/25), (61, 1/25), (81, 1/25), (101, 1/25),
      (41, 3/50), (61, 3/50), (81, 3/50), (101, 3/50)] ∧
    ∃ (i : ℕ) (hi : i < ky_array.length),
      symbolRun days = Except.ok
        ((ky_array.get ⟨i, hi⟩).1, (ky_array.get ⟨i, hi⟩).2,
          (f (ky_array.get ⟨i, hi⟩)).1, (f (ky_array.get ⟨i, hi⟩)).2) ∧
      (∀ j (hj : j < ky_array.length),
        (f (ky_array.get ⟨j, hj⟩)).1 ≤ (f (ky_array.get ⟨i, hi⟩)).1) ∧
      (∀ j (hj : j < ky_array.length), j < i →
        (f (ky_array.get ⟨j, hj⟩)).1 < (f (ky_array.get ⟨i, hi⟩)).1) :=
  ⟨by with_unfolding_all rfl,
   symbolRun_argmax_general days f (41, 1/50)
     [(61, 1/50), (81, 1/50), (101, 1/50),
      (41, 1/25), (61, 1/25), (81, 1/25), (101, 1/25),
      (41, 3/50), (61, 3/50), (81, 3/50), (101, 3/50)]
     (by with_unfolding_all rfl) hf⟩

set_option maxRecDepth 1000000 in
/-- Closed witness for `grid_selection_first_argmax`: a single 51-tick
day of constant prices, on which every candidate evaluates to zero
outliers and an all-false keep mask. -/
theorem grid_selection_first_argmax_witness :
    ky_array = [(41, 1/50), (61, 1/50), (81, 1/50), (101, 1/50),
      (41, 1/25), (61, 1/25), (81, 1/25), (101, 1/25),
      (41, 3/50), (61, 3/50), (81, 3/50), (101, 3/50)] ∧
    ∃ (i : ℕ) (hi : i < ky_array.length),
      symbolRun [List.replicate 51 (5 : ℚ)] = Except.ok
        ((ky_array.get ⟨i, hi⟩).1, (ky_array.get ⟨i, hi⟩).2,
          ((fun _ => (0, List.replicate 51 false))
            (ky_array.get ⟨i, hi⟩) : ℕ × List Bool).1,
          ((fun _ => (0, List.replicate 51 false))
            (ky_array.get ⟨i, hi⟩) : ℕ × List Bool).2) ∧
      (∀ j (hj : j < ky_array.length),
        ((fun _ => ((0 : ℕ), List.replicate 51 false))
            (ky_array.get ⟨j, hj⟩)).1 ≤
          ((fun _ => ((0 : ℕ), List.replicate 51 false))
            (ky_array.get ⟨i, hi⟩)).1) ∧
      (∀ j (hj : j < ky_array.length), j < i →
        ((fun _ => ((0 : ℕ), List.replicate 51 false))
            (ky_array.get ⟨j, hj⟩)).1 <
          ((fun _ => ((0 : ℕ), List.replicate 51 false))
            (ky_array.get ⟨i, hi⟩)).1) :=
  grid_selection_first_argmax [List.replicate 51 (5 : ℚ)]
    (fun _ => (0, List.replicate 51 false))
    (by with_unfolding_all decide)

/-! ## C5: the per-day statistics refine their specification -/

/-- C5: for a day of at least `k` prices (`k` odd, as everywhere in the
grid): the valid window centres are exactly `half .. N - half - 1` with
`half = (k - 1) / 2`; the window at a valid centre `i` consists of
exactly the `k` consecutive prices at indices `i - half .. i + half`; the
series hold, at each valid centre, the mean and sample standard deviation
of that window trimmed by dropping the values at or below its own 10th
percentile or at or above its own 90th percentile; and every index
`< half` receives the statistics computed at centre `half` while every
index `≥ N - half` receives those computed at centre `N - half - 1`. -/
theorem rolling_stats_spec (k : ℕ) (hk : k % 2 = 1) (prices : List ℚ)
    (hN : k ≤ prices.length) :
    (∀ i, range_start k ≤ i → i < prices.length - range_start k →
      (windowAt prices (range_start k) i).length = k ∧
      ∀ j, j < k →
        (windowAt prices (range_start k) i).getD j 0 =
          prices.getD (i - range_start k + j) 0) ∧
    (∀ i, range_start k ≤ i → i < prices.length - range_start k →
      (dayMeans k prices).getD i none =
        meanQ (trimWindow (windowAt prices (range_start k) i)) ∧
      (dayStds k prices).getD i none =
        stdQ (trimWindow (windowAt prices (range_start k) i))) ∧
    (∀ (w : List ℚ) (lo hi : ℚ),
      quantileQ w (1/10) = some lo → quantileQ w (9/10) = some hi →
      trimWindow w = w.filter (fun v => decide (¬(v ≤ lo ∨ hi ≤ v)))) ∧
    (∀ i, i < range_start k →
      (dayMeans k prices).getD i none =
        (dayMeans k prices).getD (range_start k) none ∧
      (dayStds k prices).getD i none =
        (dayStds k prices).getD (range_start k) none) ∧
    (∀ i, prices.length - range_start k ≤ i → i < prices.length →
      (dayMeans k prices).getD i none =
        (dayMeans k prices).getD (prices.length - range_start k - 1) none ∧
      (dayStds k prices).getD i none =
        (dayStds k prices).getD (prices.length - range_start k - 1) none) := by
  have hrs : 2 * range_start k + 1 = k := by
    unfold range_start
    omega
  have hrsN : 2 * range_start k < prices.length := by omega
  refine ⟨?_, ?_, ?_, ?_, ?_⟩
  · intro i h1 h2
    constructor
    · unfold windowAt
      rw [List.length_take, List.length_drop]
      omega
    · intro j hj
      unfold windowAt
      rw [List.getD_eq_getElem?_getD, List.getD_eq_getElem?_getD]
      rw [List.getElem?_take_of_lt (by omega), List.getElem?_drop]
  · intro i h1 h2
    exact ⟨dayMeans_getD_valid k prices i h1 h2,
      dayStds_getD_valid k prices i h1 h2⟩
  · intro w lo hi hlo hhi
    unfold trimWindow
    rw [hlo, hhi]
    refine List.filter_congr (fun v _ => ?_)
    by_cases hl : lo < v
    · by_cases hh : v < hi
      · simp [hl, hh, not_le.mpr hl, not_le.mpr hh]
      · simp [hl, hh, not_lt.mp hh]
    · simp [hl, not_lt.mp hl]
  · intro i hi
    have hvr : range_start k < prices.length - range_start k := by omega
    unfold dayMeans dayStds
    rw [fillBounds_getD_left _ _ _ _ _ hi (by omega) (by omega),
      fillBounds_getD_valid _ _ _ _ _ (le_refl _) hvr (by omega),
      fillBounds_getD_left _ _ _ _ _ hi (by omega) (by omega),
      fillBounds_getD_valid _ _ _ _ _ (le_refl _) hvr (by omega)]
    exact ⟨rfl, rfl⟩
  · intro i h1 h2
    have hvr : range_start k ≤ prices.length - range_start k - 1 := by omega
    have hvr2 : prices.length - range_start k - 1 <
        prices.length - range_start k := by omega
    unfold dayMeans dayStds
    rw [fillBounds_getD_right _ _ _ _ _ h1 h2 hvr,
      fillBounds_getD_valid _ _ _ _ _ hvr hvr2 (by omega),
      fillBounds_getD_right _ _ _ _ _ h1 h2 hvr,
      fillBounds_getD_valid _ _ _ _ _ hvr hvr2 (by omega)]
    exact ⟨rfl, rfl⟩

set_option maxRecDepth 1000000 in
/-- Closed witness for `rolling_stats_spec`, at `k = 41` on the 51-tick
day `tieDay`: the centre-20 window is the first 41 prices, position 0 of
that window is the day's first price, the boundary tick 0 copies the
centre-20 statistics, and the tail tick 50 copies the centre-30 ones. -/
theorem rolling_stats_spec_witness :
    (windowAt tieDay (range_start 41) 20).length = 41 ∧
    (windowAt tieDay (range_start 41) 20).getD 0 0 = tieDay.getD 0 0 ∧
    (dayMeans 41 tieDay).getD 20 none =
      meanQ (trimWindow (windowAt tieDay (range_start 41) 20)) ∧
    (dayMeans 41 tieDay).getD 0 none =
      (dayMeans 41 tieDay).getD (range_start 41) none ∧
    (dayStds 41 tieDay).getD 50 none =
      (dayStds 41 tieDay).getD (tieDay.length - range_start 41 - 1) none := by
  have h := rolling_stats_spec 41 (by decide) tieDay
    (by with_unfolding_all decide)
  refine ⟨(h.1 20 (by decide) (by with_unfolding_all decide)).1,
    ?_,
    (h.2.1 20 (by decide) (by with_unfolding_all decide)).1,
    (h.2.2.2.1 0 (by decide)).1,
    (h.2.2.2.2 50 (by with_unfolding_all decide)
      (by with_unfolding_all decide)).2⟩
  have h2 := (h.1 20 (by decide) (by with_unfolding_all decide)).2 0 (by decide)
  simpa using h2

/-! ## Helper lemmas: aggregation -/

lemma keyLt_irrefl (a : String × ℕ × ℕ) : ¬keyLt a a := by
  unfold keyLt
  simp [lt_irrefl]

lemma groupKeys_eq_map_keyOf (l : List AggRow) :
    (output_aggregate l).map keyOf = groupKeys l := by
  unfold output_aggregate
  rw [List.map_map]
  exact List.map_id _

lemma groupKeys_nodup (l : List AggRow) : (groupKeys l).Nodup := by
  unfold groupKeys
  exact ((List.perm_insertionSort keyLe _).nodup_iff).mpr (List.nodup_dedup _)

lemma mem_groupKeys_iff (l : List AggRow) (key : String × ℕ × ℕ) :
    key ∈ groupKeys l ↔ key ∈ l.map keyOf := by
  unfold groupKeys
  rw [(List.perm_insertionSort keyLe _).mem_iff]
  exact List.mem_dedup

lemma groupOf_eq_single (l : List AggRow) (hnd : (l.map keyOf).Nodup) :
    ∀ r ∈ l, groupOf l (keyOf r) = [r] := by
  induction l with
  | nil => intro r hr; cases hr
  | cons a l' ih =>
    rw [List.map_cons, List.nodup_cons] at hnd
    intro r hr
    rcases List.mem_cons.mp hr with rfl | hr'
    · unfold groupOf
      rw [List.filter_cons_of_pos (by simp)]
      have htail : l'.filter (fun x => decide (keyOf x = keyOf r)) = [] := by
        refine List.filter_eq_nil_iff.mpr (fun x hx => ?_)
        simp only [decide_eq_true_eq]
        intro hkey
        exact hnd.1 (hkey ▸ List.mem_map_of_mem keyOf hx)
      show (r :: l'.filter (fun x => decide (keyOf x = keyOf r))) = [r]
      rw [htail]
    · unfold groupOf
      rw [List.filter_cons_of_neg ?_]
      · exact ih hnd.2 r hr'
      · simp only [decide_eq_true_eq]
        intro hkey
        exact hnd.1 (hkey ▸ List.mem_map_of_mem keyOf hr')

/-! ## C8: one observation per key, median price, summed size -/

/-- C8: the aggregation step emits exactly one observation per distinct
`(sym_root, date, time_m)` key — its output keys are duplicate-free and
are exactly the input keys — each observation carrying the median of its
group's prices and the sum of its group's sizes; on three same-key ticks
with prices 100, 101, 102 and sizes 10, 20, 5 it emits the single
observation with price 101 and size 35. -/
theorem aggregate_spec (l : List AggRow) :
    ((output_aggregate l).map keyOf).Nodup ∧
    (∀ key, key ∈ (output_aggregate l).map keyOf ↔ key ∈ l.map keyOf) ∧
    (∀ r, r ∈ output_aggregate l →
      r.price = medianQ ((groupOf l (keyOf r)).map (fun x => x.price)) ∧
      r.size = ((groupOf l (keyOf r)).map (fun x => x.size)).sum) ∧
    output_aggregate
        [⟨"X", 1, 1, 100, 10⟩, ⟨"X", 1, 1, 101, 20⟩, ⟨"X", 1, 1, 102, 5⟩] =
      [⟨"X", 1, 1, 101, 35⟩] := by
  refine ⟨?_, ?_, ?_, ?_⟩
  · rw [groupKeys_eq_map_keyOf]
    exact groupKeys_nodup l
  · intro key
    rw [groupKeys_eq_map_keyOf]
    exact mem_groupKeys_iff l key
  · intro r hr
    obtain ⟨key, hkey, rfl⟩ := List.mem_map.mp hr
    exact ⟨rfl, rfl⟩
  · with_unfolding_all decide

/-- Closed witness for `aggregate_spec`, at the concrete three-tick
scenario. -/
theorem aggregate_spec_witness :
    ((output_aggregate
      [⟨"X", 1, 1, 100, 10⟩, ⟨"X", 1, 1, 101, 20⟩,
        ⟨"X", 1, 1, 102, 5⟩]).map keyOf).Nodup ∧
    ((⟨"X", 1, 1, 101, 35⟩ : AggRow) ∈
        output_aggregate [⟨"X", 1, 1, 100, 10⟩, ⟨"X", 1, 1, 101, 20⟩,
          ⟨"X", 1, 1, 102, 5⟩] →
      (⟨"X", 1, 1, 101, 35⟩ : AggRow).price =
        medianQ ((groupOf [⟨"X", 1, 1, 100, 10⟩, ⟨"X", 1, 1, 101, 20⟩,
          ⟨"X", 1, 1, 102, 5⟩] (keyOf ⟨"X", 1, 1, 101, 35⟩)).map
            (fun x => x.price))) := by
  have h := aggregate_spec
    [⟨"X", 1, 1, 100, 10⟩, ⟨"X", 1, 1, 101, 20⟩, ⟨"X", 1, 1, 102, 5⟩]
  exact ⟨h.1, fun hmem => (h.2.2.1 _ hmem).1⟩

/-! ## C9: aggregation of an already-aggregated collection -/

/-- C9 (amended): the aggregation step maps a collection with pairwise
distinct keys to the same observations (price and size unchanged),
reordered ascending by key; it returns the collection literally unchanged
exactly when the input is already sorted strictly ascending by
`(sym_root, date, time_m)` — as any output of the aggregator is. -/
theorem aggregate_sorted_id (l : List AggRow)
    (hsort : l.Pairwise (fun a b => keyLt (keyOf a) (keyOf b))) :
    output_aggregate l = l := by
  have hkeys : (l.map keyOf).Pairwise keyLt := by
    rw [List.pairwise_map]
    exact hsort
  have hnd : (l.map keyOf).Nodup :=
    hkeys.imp (fun h => by
      intro heq
      exact keyLt_irrefl _ (heq ▸ h))
  have hdedup : (l.map keyOf).dedup = l.map keyOf := List.dedup_eq_self.mpr hnd
  have hsorted : List.Sorted keyLe (l.map keyOf) :=
    hkeys.imp (fun h => Or.inl h)
  have hgk : groupKeys l = l.map keyOf := by
    unfold groupKeys
    rw [hdedup]
    exact hsorted.insertionSort_eq
  have haux := groupOf_eq_single l hnd
  unfold output_aggregate
  rw [hgk, List.map_map]
  have hpt : ∀ r ∈ l,
      ((fun key => (⟨key.1, key.2.1, key.2.2,
        medianQ ((groupOf l key).map (fun x => x.price)),
        ((groupOf l key).map (fun x => x.size)).sum⟩ : AggRow)) ∘ keyOf) r =
        r := by
    intro r hr
    show (⟨r.sym_root, r.date, r.time_m,
      medianQ ((groupOf l (keyOf r)).map (fun x => x.price)),
      ((groupOf l (keyOf r)).map (fun x => x.size)).sum⟩ : AggRow) = r
    rw [haux r hr]
    show (⟨r.sym_root, r.date, r.time_m, medianQ [r.price],
      ([r.size] : List ℕ).sum⟩ : AggRow) = r
    have hmed : medianQ [r.price] = r.price := by
      unfold medianQ sortQ
      simp [List.insertionSort, List.orderedInsert]
    have hsum : ([r.size] : List ℕ).sum = r.size := by simp
    rw [hmed, hsum]
  calc l.map ((fun key => (⟨key.1, key.2.1, key.2.2,
        medianQ ((groupOf l key).map (fun x => x.price)),
        ((groupOf l key).map (fun x => x.size)).sum⟩ : AggRow)) ∘ keyOf) =
      l.map id := List.map_congr_left (fun r hr => hpt r hr)
    _ = l := List.map_id l

/-- C9, counterexample to the claim as stated: a two-row collection with
distinct keys but in descending key order is reordered by the
aggregation step, not returned unchanged. -/
theorem aggregate_unsorted_cex :
    (([⟨"B", 0, 0, 1, 1⟩, ⟨"A", 0, 0, 2, 2⟩] : List AggRow).map
      keyOf).Nodup ∧
    output_aggregate [⟨"B", 0, 0, 1, 1⟩, ⟨"A", 0, 0, 2, 2⟩] =
      [⟨"A", 0, 0, 2, 2⟩, ⟨"B", 0, 0, 1, 1⟩] ∧
    output_aggregate [⟨"B", 0, 0, 1, 1⟩, ⟨"A", 0, 0, 2, 2⟩] ≠
      [⟨"B", 0, 0, 1, 1⟩, ⟨"A", 0, 0, 2, 2⟩] := by
  with_unfolding_all decide

/-- Closed witness for `aggregate_sorted_id`: a key-sorted two-row
collection passes through unchanged. -/
theorem aggregate_sorted_id_witness :
    output_aggregate [⟨"A", 0, 0, 2, 2⟩, ⟨"B", 0, 0, 1, 1⟩] =
      [⟨"A", 0, 0, 2, 2⟩, ⟨"B", 0, 0, 1, 1⟩] :=
  aggregate_sorted_id _ (by with_unfolding_all decide)
